import Mathlib

/-!
# Status cache of the runtime manager (`service/runtime/manager/status.go`)

A shallow embedding of `cacheStatus`, `listStatuses` and one tick of `watchStautes`.

Modelling conventions
* Go strings are Lean `String`s; every string operation is computed on the character list
  (`String.data`).
* `m.cache` is a `store.Store` of go-micro, an external collaborator.  Its state is a list of
  records; `Write` is an upsert and a prefix `Read` returns the records whose key starts with the
  prefix.  Either operation may be refused by the store (`StoreFaults`); a refused `Write` leaves
  the state as it was.
* `encoding/json` is external as well.  The operations take the codec as a parameter (`Codec`),
  with the one law the manager relies on: what `Marshal` emits, `Unmarshal` decodes to the same
  value.  `jsonCodec` is a concrete instance.
* `Runtime.Read` and `listNamespaces` are parameters of the tick.
-/

namespace Manager

/-! ## Errors, strings, maps -/

/-- Go `error` values that reach the manager. -/
inductive GoError where
  /-- an error value handed back by a collaborator (store, runtime, namespace lister, encoder) -/
  | collaborator (msg : String)
  /-- `json.Unmarshal` rejected its input -/
  | decode (msg : String)
  /-- `fmt.Errorf("Error listing statuses from the store for namespace %v: %v", ns, err)` -/
  | listing (ns : String) (cause : GoError)
  deriving DecidableEq, Repr

deriving instance DecidableEq for Except

/-- Splits a character list at every occurrence of `sep`. -/
def splitChars (sep : Char) : List Char → List (List Char)
  | [] => [[]]
  | c :: cs =>
    if c = sep then [] :: splitChars sep cs
    else
      match splitChars sep cs with
      | [] => [[c]]
      | h :: t => (c :: h) :: t

/-- `strings.Split(s, sep)` for a one-character separator. -/
def stringsSplit (s : String) (sep : Char) : List String :=
  (splitChars sep s.data).map String.mk

/-- `strings.HasPrefix(s, p)`. -/
def hasPrefix (s p : String) : Bool :=
  p.data.isPrefixOf s.data

/-- Indexing a `map[string]string`: the zero value `""` when the key is absent. -/
def mapIndex (m : List (String × String)) (k : String) : String :=
  (m.lookup k).getD ""

/-! ## Data model -/

/-- statusPrefix is prefixed to every status key written to the memory store. -/
def statusPrefix : String := "status/"

/-- The runtime specific information for a service. -/
structure serviceStatus where
  Status : String
  Error : String
  deriving DecidableEq, Repr

/-- The fields of `runtime.Service` the manager reads.  `Metadata` is a Go map: `none` is the nil
map, `some m` a non-nil map (possibly without entries). -/
structure Service where
  Name : String
  Version : String
  Metadata : Option (List (String × String))
  deriving DecidableEq, Repr

/-- The fields of `store.Record` the manager uses. -/
structure Record where
  Key : String
  Value : String
  deriving DecidableEq, Repr

/-- The state of the cache: the records it holds. -/
abbrev Cache := List Record

/-- The result of `listStatuses`, a `map[string]*serviceStatus`; `none` is the nil pointer. -/
abbrev StatusMap := List (String × Option serviceStatus)

/-- Assignment `m[k] = v` on a map. -/
def mapSet (m : StatusMap) (k : String) (v : Option serviceStatus) : StatusMap :=
  if m.any (fun e => e.1 = k) then m.map (fun e => if e.1 = k then (k, v) else e)
  else m ++ [(k, v)]

/-! ## Collaborators -/

/-- Modelled from the spec: the byte encoding of a status (`encoding/json` in the source, an
external library).  `Marshal` is `json.Marshal` on a `*serviceStatus`, `Unmarshal` is
`json.Unmarshal` into a `*serviceStatus` (`none`: the pointer stays nil, as for `null`).
`roundTrip` is the contract the manager relies on. -/
structure Codec where
  Marshal : serviceStatus → Except GoError String
  Unmarshal : String → Except GoError (Option serviceStatus)
  roundTrip : ∀ s b, Marshal s = .ok b → Unmarshal b = .ok (some s)

/-- Modelled from the spec: which operations the store refuses, `Cache.Write -> ok | error` and
`Cache.ReadByPrefix -> entries | error`. -/
structure StoreFaults where
  writeErr : Record → Option GoError
  readErr : String → Option GoError

/-- A store that refuses nothing. -/
def noFaults : StoreFaults := ⟨fun _ => none, fun _ => none⟩

/-- Modelled from the spec: the effect of an accepted `Cache.Write`, an idempotent upsert. -/
def upsert (c : Cache) (r : Record) : Cache :=
  if c.any (fun x => x.Key = r.Key) then c.map (fun x => if x.Key = r.Key then r else x)
  else c ++ [r]

/-- Modelled from the spec: `m.cache.Write(record)`; the new state and the returned error. -/
def cacheWrite (F : StoreFaults) (c : Cache) (r : Record) : Cache × Option GoError :=
  match F.writeErr r with
  | some e => (c, some e)
  | none => (upsert c r, none)

/-- Modelled from the spec: `m.cache.Read(prefix, store.ReadPrefix())`, all entries whose key
starts with the prefix. -/
def cacheRead (F : StoreFaults) (c : Cache) (pfx : String) : Except GoError (List Record) :=
  match F.readErr pfx with
  | some e => .error e
  | none => .ok (c.filter (fun r => hasPrefix r.Key pfx))

/-! ## The manager -/

/-- The key `fmt.Sprintf("%v%v/%v:%v", statusPrefix, ns, srv.Name, srv.Version)`. -/
def statusKey (ns name version : String) : String :=
  statusPrefix ++ ns ++ "/" ++ name ++ ":" ++ version

/-- cacheStatus writes a services status to the memory store.  Returns the cache after the call
and the returned error (`none` for nil). -/
def cacheStatus (J : Codec) (F : StoreFaults) (c : Cache) (ns : String) (srv : Service) :
    Cache × Option GoError :=
  match srv.Metadata with
  | none => (c, none)
  | some md =>
    let key := statusKey ns srv.Name srv.Version
    let val : serviceStatus := ⟨mapIndex md "status", mapIndex md "error"⟩
    match J.Marshal val with
    | .error e => (c, some e)
    | .ok bytes => cacheWrite F c ⟨key, bytes⟩

/-- The loop of `listStatuses` over the records read, with the map built so far. -/
def listLoop (J : Codec) : List Record → StatusMap → Except GoError StatusMap
  | [], statuses => .ok statuses
  | rec :: recs, statuses =>
    match J.Unmarshal rec.Value with
    | .error e => .error e
    | .ok status =>
      match stringsSplit rec.Key '/' with
      | [_, _, name] => listLoop J recs (mapSet statuses name status)
      | _ => listLoop J recs statuses

/-- listStatuses returns all the statuses for the services in a given namespace with
`name:version` as the format used for the keys in the map. -/
def listStatuses (J : Codec) (F : StoreFaults) (c : Cache) (ns : String) :
    Except GoError StatusMap :=
  match cacheRead F c (statusPrefix ++ ns ++ "/") with
  | .error e => .error (.listing ns e)
  | .ok recs => listLoop J recs []

/-- The inner loop of a tick: `cacheStatus` for each service of a namespace, stopping at the
first error. -/
def cacheServices (J : Codec) (F : StoreFaults) (ns : String) :
    Cache → List Service → Cache × Option GoError
  | c, [] => (c, none)
  | c, srv :: srvs =>
    match cacheStatus J F c ns srv with
    | (c', some e) => (c', some e)
    | (c', none) => cacheServices J F ns c' srvs

/-- The outer loop of a tick over the namespaces; `continue loop` ends the tick.  `read` is
`m.Runtime.Read(runtime.ReadNamespace(ns))`. -/
def pollNamespaces (J : Codec) (F : StoreFaults) (read : String → Except GoError (List Service)) :
    Cache → List String → Cache × Option GoError
  | c, [] => (c, none)
  | c, ns :: rest =>
    match read ns with
    | .error e => (c, some e)
    | .ok srvs =>
      match cacheServices J F ns c srvs with
      | (c', some e) => (c', some e)
      | (c', none) => pollNamespaces J F read c' rest

/-- One iteration of the loop of `watchStautes` after the ticker fired: the cache after the tick
and the error that was logged, if any. -/
def watchStautesTick (J : Codec) (F : StoreFaults) (listNamespaces : Except GoError (List String))
    (read : String → Except GoError (List Service)) (c : Cache) : Cache × Option GoError :=
  match listNamespaces with
  | .error e => (c, some e)
  | .ok namespaces => pollNamespaces J F read c namespaces

/-! ## Reference behaviour of a tick -/

/-- The cache obtained by performing `cacheStatus` for each service of the list in turn. -/
def cacheEach (J : Codec) (F : StoreFaults) (ns : String) (c : Cache) (srvs : List Service) :
    Cache :=
  srvs.foldl (fun c srv => (cacheStatus J F c ns srv).1) c

/-- The cache obtained by running `cacheStatus` for exactly the services the runtime returns for
the listed namespaces, in order. -/
def cacheNamespaces (J : Codec) (F : StoreFaults) (read : String → Except GoError (List Service))
    (c : Cache) (namespaces : List String) : Cache :=
  namespaces.foldl
    (fun c ns =>
      match read ns with
      | .ok srvs => cacheEach J F ns c srvs
      | .error _ => c)
    c

/-- What a step from cache `c` to cache `c'` keeps when it writes only keys in `W`: every key of
`c` is still a key of `c'`, and every record of `c` whose key is outside `W` is a record of
`c'`. -/
def Keeps (W : String → Prop) (c c' : Cache) : Prop :=
  (∀ r ∈ c, ∃ r' ∈ c', r'.Key = r.Key) ∧ (∀ r ∈ c, ¬ W r.Key → r ∈ c')

/-! ## A concrete codec -/

/-- The lower-case hexadecimal digit of `n < 16`. -/
def hexDigit (n : Nat) : Char :=
  "0123456789abcdef".data.getD n '0'

/-- The value of a hexadecimal digit. -/
def hexValue (c : Char) : Option Nat :=
  if '0'.toNat ≤ c.toNat ∧ c.toNat ≤ '9'.toNat then some (c.toNat - '0'.toNat)
  else if 'a'.toNat ≤ c.toNat ∧ c.toNat ≤ 'f'.toNat then some (c.toNat - 'a'.toNat + 10)
  else if 'A'.toNat ≤ c.toNat ∧ c.toNat ≤ 'F'.toNat then some (c.toNat - 'A'.toNat + 10)
  else none

/-- The number written by four hexadecimal digits (`getu4`). -/
def hex4 (a b c d : Char) : Option Nat :=
  match hexValue a, hexValue b, hexValue c, hexValue d with
  | some x, some y, some z, some w => some (((x * 16 + y) * 16 + z) * 16 + w)
  | _, _, _, _ => none

/-- How `json.Marshal` writes one character of a string (HTML escaping on). -/
def escapeChar (c : Char) : List Char :=
  if c = '"' then ['\\', '"']
  else if c = '\\' then ['\\', '\\']
  else if c = '\n' then ['\\', 'n']
  else if c = '\r' then ['\\', 'r']
  else if c = '\t' then ['\\', 't']
  else if c.toNat < 0x20 ∨ c = '<' ∨ c = '>' ∨ c = '&' ∨ c.toNat = 0x2028 ∨ c.toNat = 0x2029 then
    ['\\', 'u', hexDigit (c.toNat / 4096 % 16), hexDigit (c.toNat / 256 % 16),
      hexDigit (c.toNat / 16 % 16), hexDigit (c.toNat % 16)]
  else [c]

/-- A string as a JSON string literal. -/
def quote (s : List Char) : List Char :=
  '"' :: (s.flatMap escapeChar ++ ['"'])

/-- The character a one-letter escape stands for. -/
def unescape (e : Char) : Option Char :=
  if e = '"' then some '"'
  else if e = '\\' then some '\\'
  else if e = '/' then some '/'
  else if e = 'b' then some (Char.ofNat 8)
  else if e = 'f' then some (Char.ofNat 12)
  else if e = 'n' then some '\n'
  else if e = 'r' then some '\r'
  else if e = 't' then some '\t'
  else none

/-- The character of a `\u` escape with value `n`, given the text after it: the character, and
whether a second escape (the low half of a surrogate pair) is consumed with it. -/
def unicodeEscape (n : Nat) (rest : List Char) : Char × Bool :=
  if 0xD800 ≤ n ∧ n < 0xE000 then
    match rest with
    | '\\' :: 'u' :: a :: b :: c :: d :: _ =>
      match hex4 a b c d with
      | some n2 =>
        if n < 0xDC00 ∧ 0xDC00 ≤ n2 ∧ n2 < 0xE000 then
          (Char.ofNat ((n - 0xD800) * 1024 + (n2 - 0xDC00) + 0x10000), true)
        else (Char.ofNat 0xFFFD, false)
      | none => (Char.ofNat 0xFFFD, false)
    | _ => (Char.ofNat 0xFFFD, false)
  else (Char.ofNat n, false)

/-- Reads the body of a JSON string literal up to its closing quote: the decoded string and the
text after the quote.  The fuel bounds the number of characters read. -/
def unquote : Nat → List Char → Option (List Char × List Char)
  | 0, _ => none
  | _, [] => none
  | fuel + 1, c :: rest =>
    if c = '"' then some ([], rest)
    else if c = '\\' then
      match rest with
      | [] => none
      | e :: rest1 =>
        if e = 'u' then
          match rest1 with
          | a :: b :: c1 :: d :: rest2 =>
            match hex4 a b c1 d with
            | none => none
            | some n =>
              match unicodeEscape n rest2 with
              | (x, false) => (unquote fuel rest2).map (fun p => (x :: p.1, p.2))
              | (x, true) => (unquote fuel (rest2.drop 6)).map (fun p => (x :: p.1, p.2))
          | _ => none
        else
          match unescape e with
          | none => none
          | some x => (unquote fuel rest1).map (fun p => (x :: p.1, p.2))
    else if c.toNat < 0x20 then none
    else (unquote fuel rest).map (fun p => (c :: p.1, p.2))

/-- Removes the prefix `p` from a text that starts with it. -/
def stripPrefix : List Char → List Char → Option (List Char)
  | [], l => some l
  | _ :: _, [] => none
  | p :: ps, c :: cs => if p = c then stripPrefix ps cs else none

/-- The text `json.Marshal` produces for a `serviceStatus`. -/
def jsonMarshal (s : serviceStatus) : String :=
  ⟨"\x7b\"Status\":".data ++ quote s.Status.data ++ ",\"Error\":".data ++ quote s.Error.data
    ++ "\x7d".data⟩

/-- Decodes `null` (the pointer stays nil) and an object in the layout `jsonMarshal` writes;
every other text is rejected.  (`encoding/json` accepts further layouts of an object, none of
which `cacheStatus` writes.) -/
def jsonUnmarshal (b : String) : Except GoError (Option serviceStatus) :=
  if b = "null" then .ok none
  else
    match stripPrefix "\x7b\"Status\":\"".data b.data with
    | none => .error (.decode b)
    | some r1 =>
      match unquote r1.length r1 with
      | none => .error (.decode b)
      | some (st, r2) =>
        match stripPrefix ",\"Error\":\"".data r2 with
        | none => .error (.decode b)
        | some r3 =>
          match unquote r3.length r3 with
          | none => .error (.decode b)
          | some (er, r4) =>
            if r4 = "\x7d".data then .ok (some ⟨⟨st⟩, ⟨er⟩⟩) else .error (.decode b)

/-! ## The concrete codec keeps the contract -/

theorem hexValue_hexDigit : ∀ d, d < 16 → hexValue (hexDigit d) = some d := by
  decide

theorem hex4_digits (n : Nat) (h : n < 65536) :
    hex4 (hexDigit (n / 4096 % 16)) (hexDigit (n / 256 % 16)) (hexDigit (n / 16 % 16))
      (hexDigit (n % 16)) = some n := by
  have h3 := hexValue_hexDigit (n / 4096 % 16) (Nat.mod_lt _ (by decide))
  have h2 := hexValue_hexDigit (n / 256 % 16) (Nat.mod_lt _ (by decide))
  have h1 := hexValue_hexDigit (n / 16 % 16) (Nat.mod_lt _ (by decide))
  have h0 := hexValue_hexDigit (n % 16) (Nat.mod_lt _ (by decide))
  simp only [hex4, h3, h2, h1, h0, Option.some.injEq]
  omega

theorem unicodeEscape_plain (n : Nat) (rest : List Char) (h : n < 0xD800) :
    unicodeEscape n rest = (Char.ofNat n, false) := by
  unfold unicodeEscape
  rw [if_neg]
  omega

theorem unquote_escapeChar (c : Char) (fuel : Nat) (tail : List Char) :
    unquote (fuel + 1) (escapeChar c ++ tail)
      = (unquote fuel tail).map (fun p => (c :: p.1, p.2)) := by
  unfold escapeChar
  split_ifs with h1 h2 h3 h4 h5 h6
  · subst h1; simp [unquote, unescape]
  · subst h2; simp [unquote, unescape]
  · subst h3; simp [unquote, unescape]
  · subst h4; simp [unquote, unescape]
  · subst h5; simp [unquote, unescape]
  · have hlt : c.toNat < 0xD800 := by
      rcases h6 with h | h | h | h | h | h
      · omega
      · subst h; decide
      · subst h; decide
      · subst h; decide
      · omega
      · omega
    have hex := hex4_digits c.toNat (by omega)
    simp [unquote, hex, unicodeEscape_plain _ _ hlt, Char.ofNat_toNat]
  · push_neg at h6
    simp [unquote, h1, h2, h6.1]

theorem unquote_quote (s rest : List Char) :
    ∀ fuel, s.length < fuel → unquote fuel (s.flatMap escapeChar ++ '"' :: rest) = some (s, rest) := by
  induction s with
  | nil =>
    intro fuel h
    cases fuel with
    | zero => simp at h
    | succ f => simp [unquote]
  | cons c s ih =>
    intro fuel h
    cases fuel with
    | zero => simp at h
    | succ f =>
      have hf : s.length < f := by simpa using h
      rw [List.flatMap_cons, List.append_assoc, unquote_escapeChar, ih f hf]
      rfl

theorem escapeChar_length (c : Char) : 1 ≤ (escapeChar c).length := by
  unfold escapeChar
  split_ifs <;> simp

theorem length_le_flatMap_escapeChar (s : List Char) :
    s.length ≤ (s.flatMap escapeChar).length := by
  induction s with
  | nil => simp
  | cons c s ih =>
    have := escapeChar_length c
    simp only [List.flatMap_cons, List.length_cons, List.length_append]
    omega

theorem stripPrefix_append (p l : List Char) : stripPrefix p (p ++ l) = some l := by
  induction p with
  | nil => rfl
  | cons a p ih => simp [stripPrefix, ih]

theorem jsonUnmarshal_jsonMarshal (s : serviceStatus) :
    jsonUnmarshal (jsonMarshal s) = .ok (some s) := by
  obtain ⟨⟨st⟩, ⟨er⟩⟩ := s
  have hne : jsonMarshal ⟨⟨st⟩, ⟨er⟩⟩ ≠ "null" := by
    intro h
    have := congrArg (fun x => x.data.head?) h
    simp [jsonMarshal] at this
  have e1 : (jsonMarshal ⟨⟨st⟩, ⟨er⟩⟩).data
      = "\x7b\"Status\":\"".data ++ (st.flatMap escapeChar ++ '"' ::
          (",\"Error\":\"".data ++ (er.flatMap escapeChar ++ '"' :: "\x7d".data))) := by
    simp [jsonMarshal, quote]
  have q1 := unquote_quote st (",\"Error\":\"".data ++ (er.flatMap escapeChar ++ '"' :: "\x7d".data))
    (st.flatMap escapeChar ++ '"' ::
      (",\"Error\":\"".data ++ (er.flatMap escapeChar ++ '"' :: "\x7d".data))).length
    (by have := length_le_flatMap_escapeChar st; simp only [List.length_append, List.length_cons]; omega)
  have q2 := unquote_quote er "\x7d".data (er.flatMap escapeChar ++ '"' :: "\x7d".data).length
    (by have := length_le_flatMap_escapeChar er; simp only [List.length_append, List.length_cons]; omega)
  unfold jsonUnmarshal
  rw [if_neg hne, e1, stripPrefix_append]
  simp only [q1, stripPrefix_append, q2]
  simp

/-- The codec of the source: `json.Marshal` never fails on a `serviceStatus`. -/
def jsonCodec : Codec where
  Marshal s := .ok (jsonMarshal s)
  Unmarshal := jsonUnmarshal
  roundTrip := by
    intro s b h
    cases h
    exact jsonUnmarshal_jsonMarshal s

/-! ## Splitting and keys -/

theorem splitChars_ne_nil (sep : Char) (l : List Char) : splitChars sep l ≠ [] := by
  cases l with
  | nil => simp [splitChars]
  | cons c cs =>
    unfold splitChars
    split_ifs
    · simp
    · split <;> simp

theorem splitChars_cons_ne (sep c : Char) (cs : List Char) (h : c ≠ sep) :
    ∃ x t, splitChars sep cs = x :: t ∧ splitChars sep (c :: cs) = (c :: x) :: t := by
  cases hs : splitChars sep cs with
  | nil => exact absurd hs (splitChars_ne_nil sep cs)
  | cons x t =>
    refine ⟨x, t, rfl, ?_⟩
    rw [splitChars, if_neg h, hs]

theorem splitChars_append_sep (sep : Char) (p rest : List Char) (h : sep ∉ p) :
    splitChars sep (p ++ sep :: rest) = p :: splitChars sep rest := by
  induction p with
  | nil => simp [splitChars]
  | cons c cs ih =>
    have hc : c ≠ sep := fun e => h (by simp [e])
    have hcs : sep ∉ cs := fun e => h (by simp [e])
    obtain ⟨x, t, h1, h2⟩ := splitChars_cons_ne sep c (cs ++ sep :: rest) hc
    rw [List.cons_append, h2]
    rw [ih hcs] at h1
    cases h1
    rfl

theorem splitChars_of_not_mem (sep : Char) (l : List Char) (h : sep ∉ l) :
    splitChars sep l = [l] := by
  induction l with
  | nil => rfl
  | cons c cs ih =>
    have hc : c ≠ sep := fun e => h (by simp [e])
    have hcs : sep ∉ cs := fun e => h (by simp [e])
    obtain ⟨x, t, h1, h2⟩ := splitChars_cons_ne sep c cs hc
    rw [ih hcs] at h1
    cases h1
    exact h2

theorem splitChars_length (sep : Char) (l : List Char) :
    (splitChars sep l).length = l.count sep + 1 := by
  induction l with
  | nil => rfl
  | cons c cs ih =>
    by_cases hc : c = sep
    · subst hc
      simp [splitChars, ih]
    · obtain ⟨x, t, h1, h2⟩ := splitChars_cons_ne sep c cs hc
      rw [h2, List.count_cons_of_ne (Ne.symm hc), ← ih, h1]
      rfl

theorem splitChars_singleton (sep : Char) (l x : List Char) (h : splitChars sep l = [x]) :
    x = l ∧ sep ∉ l := by
  have hlen := splitChars_length sep l
  rw [h] at hlen
  have hc : l.count sep = 0 := by simpa using hlen.symm
  have hn : sep ∉ l := List.count_eq_zero.mp hc
  rw [splitChars_of_not_mem sep l hn] at h
  simp only [List.cons.injEq, and_true] at h
  exact ⟨h.symm, hn⟩

theorem append_cons_cancel (sep : Char) :
    ∀ (a a' b b' : List Char), sep ∉ a → sep ∉ a' → a ++ sep :: b = a' ++ sep :: b' →
      a = a' ∧ b = b' := by
  intro a
  induction a with
  | nil =>
    intro a' b b' _ ha' h
    cases a' with
    | nil => simpa using h
    | cons x xs =>
      simp only [List.nil_append, List.cons_append, List.cons.injEq] at h
      exact absurd h.1 (fun e => ha' (by simp [e]))
  | cons y ys ih =>
    intro a' b b' ha ha' h
    cases a' with
    | nil =>
      simp only [List.nil_append, List.cons_append, List.cons.injEq] at h
      exact absurd h.1 (fun e => ha (by simp [e]))
    | cons x xs =>
      simp only [List.cons_append, List.cons.injEq] at h
      obtain ⟨h1, h2⟩ := ih xs b b' (fun e => ha (by simp [e])) (fun e => ha' (by simp [e])) h.2
      exact ⟨by rw [h.1, h1], h2⟩

theorem statusKey_data (ns name version : String) :
    (statusKey ns name version).data
      = "status".data ++ '/' :: (ns.data ++ '/' :: (name.data ++ ':' :: version.data)) := by
  simp [statusKey, statusPrefix]

theorem listingPrefix_data (ns : String) :
    (statusPrefix ++ ns ++ "/").data = "status".data ++ '/' :: (ns.data ++ ['/']) := by
  simp [statusPrefix]

theorem stringsSplit_statusKey (ns name version : String)
    (hns : '/' ∉ ns.data) (hname : '/' ∉ name.data) (hver : '/' ∉ version.data) :
    stringsSplit (statusKey ns name version) '/' = ["status", ns, name ++ ":" ++ version] := by
  have hs : '/' ∉ "status".data := by decide
  have hrest : '/' ∉ name.data ++ ':' :: version.data := by
    simp only [List.mem_append, List.mem_cons, not_or]
    exact ⟨hname, by decide, hver⟩
  rw [stringsSplit, statusKey_data, splitChars_append_sep _ _ _ hs,
    splitChars_append_sep _ _ _ hns, splitChars_of_not_mem _ _ hrest]
  simp [String.ext_iff]

theorem hasPrefix_iff (s p : String) : hasPrefix s p = true ↔ ∃ t, s.data = p.data ++ t := by
  unfold hasPrefix
  rw [List.isPrefixOf_iff_prefix]
  constructor
  · rintro ⟨t, ht⟩
    exact ⟨t, ht.symm⟩
  · rintro ⟨t, ht⟩
    exact ⟨t, ht.symm⟩

theorem hasPrefix_statusKey (ns name version : String) :
    hasPrefix (statusKey ns name version) (statusPrefix ++ ns ++ "/") = true := by
  rw [hasPrefix_iff]
  exact ⟨name.data ++ ':' :: version.data, by simp [statusKey, statusPrefix]⟩

theorem key_of_three_components (ns key a b k : String) (hns : '/' ∉ ns.data)
    (hp : hasPrefix key (statusPrefix ++ ns ++ "/") = true)
    (hs : stringsSplit key '/' = [a, b, k]) :
    key.data = "status".data ++ '/' :: (ns.data ++ '/' :: k.data) := by
  obtain ⟨t, ht⟩ := (hasPrefix_iff _ _).mp hp
  rw [listingPrefix_data] at ht
  have ht' : key.data = "status".data ++ '/' :: (ns.data ++ '/' :: t) := by
    rw [ht]; simp
  have hst : '/' ∉ "status".data := by decide
  rw [stringsSplit, ht', splitChars_append_sep _ _ _ hst, splitChars_append_sep _ _ _ hns] at hs
  simp only [List.map_cons, List.cons.injEq] at hs
  obtain ⟨_, _, hk⟩ := hs
  have hlen : (splitChars '/' t).length = 1 := by
    have := congrArg List.length hk
    simpa using this
  obtain ⟨y, hy⟩ := List.length_eq_one.mp hlen
  obtain ⟨hyt, _⟩ := splitChars_singleton '/' t y hy
  rw [hy] at hk
  simp only [List.map_cons, List.map_nil, List.cons.injEq, and_true] at hk
  rw [ht', ← hyt, ← hk]

theorem statusKey_foreign_shape (ns1 ns2 name version : String) (hne : ns1 ≠ ns2)
    (hp : hasPrefix (statusKey ns1 name version) (statusPrefix ++ ns2 ++ "/") = true) :
    (stringsSplit (statusKey ns1 name version) '/').length ≠ 3 := by
  intro h3
  obtain ⟨t, ht⟩ := (hasPrefix_iff _ _).mp hp
  rw [listingPrefix_data] at ht
  have ht' : (statusKey ns1 name version).data
      = "status".data ++ '/' :: (ns2.data ++ '/' :: t) := by
    rw [ht]; simp
  have hcount : (statusKey ns1 name version).data.count '/' = 2 := by
    have := splitChars_length '/' (statusKey ns1 name version).data
    rw [stringsSplit, List.length_map] at h3
    omega
  have hst : "status".data.count '/' = 0 := by decide
  have c1 := hcount
  rw [statusKey_data, List.count_append, hst, List.count_cons_self, List.count_append,
    List.count_cons_self] at c1
  have c2 := hcount
  rw [ht', List.count_append, hst, List.count_cons_self, List.count_append,
    List.count_cons_self] at c2
  have n1 : '/' ∉ ns1.data := List.count_eq_zero.mp (by omega)
  have n2 : '/' ∉ ns2.data := List.count_eq_zero.mp (by omega)
  have heq := ht'
  rw [statusKey_data] at heq
  have heq' := List.append_cancel_left heq
  simp only [List.cons.injEq, true_and] at heq'
  obtain ⟨e1, _⟩ := append_cons_cancel '/' _ _ _ _ n1 n2 heq'
  exact hne (String.ext e1)

/-! ## The store -/

theorem upsert_upsert (c : Cache) (r : Record) : upsert (upsert c r) r = upsert c r := by
  by_cases h : c.any (fun x => x.Key = r.Key) = true
  · have h2 : (c.map (fun x => if x.Key = r.Key then r else x)).any (fun x => x.Key = r.Key)
        = true := by
      simp only [List.any_eq_true, decide_eq_true_eq, List.mem_map] at h ⊢
      obtain ⟨x, hx, hk⟩ := h
      exact ⟨r, ⟨x, hx, by simp [hk]⟩, rfl⟩
    have e : upsert c r = c.map (fun x => if x.Key = r.Key then r else x) := by
      simp only [upsert, h, if_true]
    rw [e]
    simp only [upsert, h2, if_true, List.map_map]
    apply List.map_congr_left
    intro x _
    by_cases hx : x.Key = r.Key <;> simp [hx]
  · have e : upsert c r = c ++ [r] := by
      simp only [upsert, h, Bool.false_eq_true, if_false]
    have h2 : (c ++ [r]).any (fun x => x.Key = r.Key) = true := by simp
    rw [e]
    simp only [upsert, h2, if_true, List.map_append, List.map_cons, List.map_nil, if_true]
    congr 1
    rw [List.map_congr_left, List.map_id]
    intro x hx
    have : ¬ x.Key = r.Key := by
      intro hk
      apply h
      simp only [List.any_eq_true, decide_eq_true_eq]
      exact ⟨x, hx, hk⟩
    simp [this]

theorem mem_upsert (c : Cache) (x r : Record) (h : r ∈ upsert c x) :
    r = x ∨ (r ∈ c ∧ r.Key ≠ x.Key) := by
  unfold upsert at h
  split_ifs at h with hany
  · obtain ⟨y, hy, hr⟩ := List.mem_map.mp h
    by_cases hk : y.Key = x.Key
    · rw [if_pos hk] at hr
      exact Or.inl hr.symm
    · rw [if_neg hk] at hr
      subst hr
      exact Or.inr ⟨hy, hk⟩
  · rcases List.mem_append.mp h with hc | hx
    · refine Or.inr ⟨hc, fun hk => hany ?_⟩
      simp only [List.any_eq_true, decide_eq_true_eq]
      exact ⟨r, hc, hk⟩
    · exact Or.inl (List.mem_singleton.mp hx)

theorem self_mem_upsert (c : Cache) (x : Record) : x ∈ upsert c x := by
  unfold upsert
  split_ifs with hany
  · simp only [List.any_eq_true, decide_eq_true_eq] at hany
    obtain ⟨y, hy, hk⟩ := hany
    exact List.mem_map.mpr ⟨y, hy, by simp [hk]⟩
  · simp

theorem Keeps.refl (W : String → Prop) (c : Cache) : Keeps W c c :=
  ⟨fun r hr => ⟨r, hr, rfl⟩, fun _ hr _ => hr⟩

theorem Keeps.trans {W : String → Prop} {c1 c2 c3 : Cache} (h12 : Keeps W c1 c2)
    (h23 : Keeps W c2 c3) : Keeps W c1 c3 := by
  constructor
  · intro r hr
    obtain ⟨r2, hr2, hk2⟩ := h12.1 r hr
    obtain ⟨r3, hr3, hk3⟩ := h23.1 r2 hr2
    exact ⟨r3, hr3, hk3.trans hk2⟩
  · intro r hr hW
    exact h23.2 r (h12.2 r hr hW) hW

theorem Keeps.mono {W : String → Prop} (W' : String → Prop) {c c' : Cache} (h : Keeps W c c')
    (hW : ∀ k, W k → W' k) : Keeps W' c c' :=
  ⟨h.1, fun r hr hn => h.2 r hr (fun hk => hn (hW _ hk))⟩

theorem upsert_keeps (c : Cache) (x : Record) : Keeps (fun k => k = x.Key) c (upsert c x) := by
  unfold upsert
  split_ifs with h
  · constructor
    · intro r hr
      by_cases hk : r.Key = x.Key
      · exact ⟨x, List.mem_map.mpr ⟨r, hr, by simp [hk]⟩, hk.symm⟩
      · exact ⟨r, List.mem_map.mpr ⟨r, hr, by simp [hk]⟩, rfl⟩
    · intro r hr hk
      exact List.mem_map.mpr ⟨r, hr, by simp [hk]⟩
  · constructor
    · intro r hr
      exact ⟨r, List.mem_append_left _ hr, rfl⟩
    · intro r hr _
      exact List.mem_append_left _ hr

theorem filter_append_cons_skip (p : Record → Bool) (l1 l2 : List Record) (e : Record) :
    (l1 ++ e :: l2).filter p
      = l1.filter p ++ (if p e then [e] else []) ++ l2.filter p := by
  by_cases h : p e = true <;> simp [List.filter_cons, h]

theorem filter_prefix_cons_pos (pfx : String) (y : Record) (c : List Record)
    (h : hasPrefix y.Key pfx = true) :
    (y :: c).filter (fun r => hasPrefix r.Key pfx)
      = y :: c.filter (fun r => hasPrefix r.Key pfx) := by
  simp [List.filter_cons, h]

theorem filter_prefix_cons_neg (pfx : String) (y : Record) (c : List Record)
    (h : ¬ hasPrefix y.Key pfx = true) :
    (y :: c).filter (fun r => hasPrefix r.Key pfx)
      = c.filter (fun r => hasPrefix r.Key pfx) := by
  simp [List.filter_cons, h]

/-! ## Facts about `cacheStatus` -/

theorem cacheStatus_written (J : Codec) (F : StoreFaults) (c : Cache) (ns : String)
    (srv : Service) (md : List (String × String)) (hmd : srv.Metadata = some md)
    (hok : (cacheStatus J F c ns srv).2 = none) :
    ∃ bytes, J.Marshal ⟨mapIndex md "status", mapIndex md "error"⟩ = .ok bytes ∧
      (cacheStatus J F c ns srv).1 = upsert c ⟨statusKey ns srv.Name srv.Version, bytes⟩ := by
  unfold cacheStatus at hok ⊢
  rw [hmd] at hok ⊢
  dsimp only at hok ⊢
  cases hm : J.Marshal ⟨mapIndex md "status", mapIndex md "error"⟩ with
  | error e =>
    rw [hm] at hok
    cases hok
  | ok bytes =>
    rw [hm] at hok
    dsimp only at hok ⊢
    unfold cacheWrite at hok ⊢
    cases hw : F.writeErr ⟨statusKey ns srv.Name srv.Version, bytes⟩ with
    | some e =>
      rw [hw] at hok
      cases hok
    | none => exact ⟨bytes, rfl, rfl⟩

theorem cacheStatus_cases (J : Codec) (F : StoreFaults) (c : Cache) (ns : String)
    (srv : Service) :
    (cacheStatus J F c ns srv).1 = c ∨
      ∃ val bytes, J.Marshal val = .ok bytes ∧
        (cacheStatus J F c ns srv).1 = upsert c ⟨statusKey ns srv.Name srv.Version, bytes⟩ := by
  unfold cacheStatus
  cases srv.Metadata with
  | none => exact Or.inl rfl
  | some md =>
    dsimp only
    cases hm : J.Marshal ⟨mapIndex md "status", mapIndex md "error"⟩ with
    | error e => exact Or.inl rfl
    | ok bytes =>
      dsimp only
      unfold cacheWrite
      cases F.writeErr ⟨statusKey ns srv.Name srv.Version, bytes⟩ with
      | some e => exact Or.inl rfl
      | none => exact Or.inr ⟨_, bytes, hm, rfl⟩

theorem cacheStatus_keeps (J : Codec) (F : StoreFaults) (c : Cache) (ns : String)
    (srv : Service) :
    Keeps (fun k => srv.Metadata ≠ none ∧ k = statusKey ns srv.Name srv.Version) c
      (cacheStatus J F c ns srv).1 := by
  unfold cacheStatus
  cases hmd : srv.Metadata with
  | none => exact Keeps.refl _ c
  | some md =>
    dsimp only
    cases J.Marshal ⟨mapIndex md "status", mapIndex md "error"⟩ with
    | error e => exact Keeps.refl _ c
    | ok bytes =>
      dsimp only
      unfold cacheWrite
      cases F.writeErr ⟨statusKey ns srv.Name srv.Version, bytes⟩ with
      | some e => exact Keeps.refl _ c
      | none =>
        exact (upsert_keeps c ⟨statusKey ns srv.Name srv.Version, bytes⟩).mono _
          (fun k hk => ⟨by simp, hk⟩)

theorem cacheStatus_jsonCodec_noFaults (c : Cache) (ns : String) (srv : Service) :
    (cacheStatus jsonCodec noFaults c ns srv).2 = none := by
  unfold cacheStatus
  cases srv.Metadata <;> rfl

/-! ## The loop of `listStatuses` -/

theorem listLoop_cons_skip (J : Codec) (r : Record) (recs : List Record) (m : StatusMap)
    (v : Option serviceStatus) (hdec : J.Unmarshal r.Value = .ok v)
    (hshape : (stringsSplit r.Key '/').length ≠ 3) :
    listLoop J (r :: recs) m = listLoop J recs m := by
  rw [listLoop, hdec]
  dsimp only
  split
  · rename_i h
    rw [h] at hshape
    exact absurd rfl hshape
  · rfl

theorem listLoop_cons_set (J : Codec) (r : Record) (recs : List Record) (m : StatusMap)
    (v : Option serviceStatus) (a b k : String) (hdec : J.Unmarshal r.Value = .ok v)
    (hshape : stringsSplit r.Key '/' = [a, b, k]) :
    listLoop J (r :: recs) m = listLoop J recs (mapSet m k v) := by
  rw [listLoop, hdec]
  dsimp only
  rw [hshape]

theorem listLoop_cons_error (J : Codec) (r : Record) (recs : List Record) (m : StatusMap)
    (e : GoError) (hdec : J.Unmarshal r.Value = .error e) :
    listLoop J (r :: recs) m = .error e := by
  rw [listLoop, hdec]

theorem listLoop_cons_ok (J : Codec) (r : Record) (recs : List Record) (m : StatusMap)
    (v : Option serviceStatus) (hdec : J.Unmarshal r.Value = .ok v) :
    ∃ m', listLoop J (r :: recs) m = listLoop J recs m' := by
  rw [listLoop, hdec]
  dsimp only
  split
  · exact ⟨_, rfl⟩
  · exact ⟨_, rfl⟩

theorem listLoop_cons_step (J : Codec) (r : Record) (m : StatusMap)
    (v : Option serviceStatus) (hdec : J.Unmarshal r.Value = .ok v) :
    ∃ m', ∀ recs, listLoop J (r :: recs) m = listLoop J recs m' := by
  by_cases h : (stringsSplit r.Key '/').length = 3
  · obtain ⟨a, b, k, hk⟩ := List.length_eq_three.mp h
    exact ⟨mapSet m k v, fun recs => listLoop_cons_set J r recs m v a b k hdec hk⟩
  · exact ⟨m, fun recs => listLoop_cons_skip J r recs m v hdec h⟩

theorem listLoop_error_of_mem (J : Codec) (recs : List Record) :
    ∀ (m : StatusMap), (∃ r ∈ recs, ∃ e, J.Unmarshal r.Value = .error e) →
      ∃ r ∈ recs, ∃ e, J.Unmarshal r.Value = .error e ∧ listLoop J recs m = .error e := by
  induction recs with
  | nil =>
    intro m h
    obtain ⟨r, hr, _⟩ := h
    simp at hr
  | cons x xs ih =>
    intro m h
    cases hx : J.Unmarshal x.Value with
    | error e =>
      exact ⟨x, List.mem_cons_self _ _, e, hx, listLoop_cons_error J x xs m e hx⟩
    | ok v =>
      obtain ⟨m', hm'⟩ := listLoop_cons_ok J x xs m v hx
      have h' : ∃ r ∈ xs, ∃ e, J.Unmarshal r.Value = .error e := by
        obtain ⟨r, hr, e, he⟩ := h
        rcases List.mem_cons.mp hr with rfl | hr'
        · rw [hx] at he
          cases he
        · exact ⟨r, hr', e, he⟩
      obtain ⟨r, hr, e, he, hl⟩ := ih m' h'
      exact ⟨r, List.mem_cons_of_mem _ hr, e, he, by rw [hm', hl]⟩

theorem listLoop_append (J : Codec) (xs ys : List Record) :
    ∀ (m : StatusMap), listLoop J (xs ++ ys) m
      = match listLoop J xs m with
        | .error e => .error e
        | .ok m' => listLoop J ys m' := by
  induction xs with
  | nil => intro m; rfl
  | cons x xs ih =>
    intro m
    cases hx : J.Unmarshal x.Value with
    | error e => simp [listLoop, hx]
    | ok v =>
      simp only [List.cons_append, listLoop, hx]
      split <;> exact ih _

theorem lookup_cons_of_ne (k a : String) (b : Option serviceStatus) (t : StatusMap)
    (h : a ≠ k) : List.lookup k ((a, b) :: t) = List.lookup k t := by
  have hk : (k == a) = false := by simpa using fun x => h x.symm
  simp only [List.lookup_cons, hk]

theorem lookup_cons_self (k : String) (b : Option serviceStatus) (t : StatusMap) :
    List.lookup k ((k, b) :: t) = some b := by
  simp only [List.lookup_cons, beq_self_eq_true]

theorem lookup_mapSet_self (m : StatusMap) (k : String) (v : Option serviceStatus) :
    (mapSet m k v).lookup k = some v := by
  unfold mapSet
  split_ifs with h
  · induction m with
    | nil => simp at h
    | cons e t ih =>
      obtain ⟨a, b⟩ := e
      rw [List.map_cons]
      dsimp only
      by_cases he : a = k
      · rw [if_pos he, lookup_cons_self]
      · have ht : t.any (fun e => decide (e.1 = k)) = true := by
          simpa [List.any_cons, he] using h
        rw [if_neg he, lookup_cons_of_ne k a b _ he]
        exact ih ht
  · induction m with
    | nil => exact lookup_cons_self k v []
    | cons e t ih =>
      obtain ⟨a, b⟩ := e
      have he : ¬ a = k := by
        intro x
        apply h
        simp [x]
      have ht : ¬ t.any (fun e => decide (e.1 = k)) = true := by
        intro x
        apply h
        simp only [List.any_cons, x, Bool.or_true]
      rw [List.cons_append, lookup_cons_of_ne k a b _ he]
      exact ih ht

theorem lookup_mapSet_of_ne (m : StatusMap) (k k' : String) (v : Option serviceStatus)
    (hne : k' ≠ k) : (mapSet m k v).lookup k' = m.lookup k' := by
  unfold mapSet
  split_ifs with h
  · clear h
    induction m with
    | nil => rfl
    | cons e t ih =>
      obtain ⟨a, b⟩ := e
      rw [List.map_cons]
      dsimp only
      by_cases he : a = k
      · subst he
        rw [if_pos rfl, lookup_cons_of_ne k' a v _ (Ne.symm hne),
          lookup_cons_of_ne k' a b _ (Ne.symm hne)]
        exact ih
      · rw [if_neg he]
        by_cases hk : a = k'
        · subst hk
          rw [lookup_cons_self, lookup_cons_self]
        · rw [lookup_cons_of_ne k' a b _ hk, lookup_cons_of_ne k' a b _ hk]
          exact ih
  · clear h
    induction m with
    | nil => exact lookup_cons_of_ne k' k v [] (Ne.symm hne)
    | cons e t ih =>
      obtain ⟨a, b⟩ := e
      rw [List.cons_append]
      by_cases hk : a = k'
      · subst hk
        rw [lookup_cons_self, lookup_cons_self]
      · rw [lookup_cons_of_ne k' a b _ hk, lookup_cons_of_ne k' a b _ hk]
        exact ih

theorem listLoop_lookup (J : Codec) (k : String) (x : Option serviceStatus)
    (recs : List Record) :
    ∀ (m : StatusMap), (∀ r ∈ recs, ∃ v, J.Unmarshal r.Value = .ok v) →
      (∀ r ∈ recs, ∀ a b, stringsSplit r.Key '/' = [a, b, k] → J.Unmarshal r.Value = .ok x) →
      ∃ m', listLoop J recs m = .ok m' ∧
        (((∃ r ∈ recs, ∃ a b, stringsSplit r.Key '/' = [a, b, k]) ∨ m.lookup k = some x) →
          m'.lookup k = some x) := by
  induction recs with
  | nil =>
    intro m _ _
    refine ⟨m, rfl, ?_⟩
    rintro (⟨r, hr, _⟩ | h)
    · simp at hr
    · exact h
  | cons r recs ih =>
    intro m hdec hval
    obtain ⟨v, hv⟩ := hdec r (List.mem_cons_self _ _)
    have hdec' : ∀ r ∈ recs, ∃ v, J.Unmarshal r.Value = .ok v :=
      fun r hr => hdec r (List.mem_cons_of_mem _ hr)
    have hval' : ∀ r ∈ recs, ∀ a b, stringsSplit r.Key '/' = [a, b, k] →
        J.Unmarshal r.Value = .ok x :=
      fun r hr => hval r (List.mem_cons_of_mem _ hr)
    by_cases h3 : (stringsSplit r.Key '/').length = 3
    · obtain ⟨a, b, k', hk'⟩ := List.length_eq_three.mp h3
      rw [listLoop_cons_set J r recs m v a b k' hv hk']
      obtain ⟨m', hm', hl⟩ := ih (mapSet m k' v) hdec' hval'
      refine ⟨m', hm', fun hpre => hl ?_⟩
      by_cases hkk : k' = k
      · subst hkk
        have hx := hval r (List.mem_cons_self _ _) a b hk'
        rw [hv] at hx
        cases hx
        exact Or.inr (lookup_mapSet_self m k' _)
      · rcases hpre with ⟨r', hr', a', b', hs'⟩ | hm
        · rcases List.mem_cons.mp hr' with rfl | hin
          · rw [hk'] at hs'
            simp only [List.cons.injEq, and_true] at hs'
            exact absurd hs'.2.2 hkk
          · exact Or.inl ⟨r', hin, a', b', hs'⟩
        · exact Or.inr (by rw [lookup_mapSet_of_ne m k' k v (Ne.symm hkk)]; exact hm)
    · rw [listLoop_cons_skip J r recs m v hv h3]
      obtain ⟨m', hm', hl⟩ := ih m hdec' hval'
      refine ⟨m', hm', fun hpre => hl ?_⟩
      rcases hpre with ⟨r', hr', a', b', hs'⟩ | hm
      · rcases List.mem_cons.mp hr' with rfl | hin
        · rw [hs'] at h3
          exact absurd rfl h3
        · exact Or.inl ⟨r', hin, a', b', hs'⟩
      · exact Or.inr hm

theorem listLoop_filter_map_replace (J : Codec) (pfx : String) (x : Record)
    (v : Option serviceStatus) (hdec : J.Unmarshal x.Value = .ok v)
    (hshape : hasPrefix x.Key pfx = true → (stringsSplit x.Key '/').length ≠ 3)
    (m : StatusMap) (c : Cache) :
    ∀ (m0 : StatusMap), listLoop J (c.filter (fun r => hasPrefix r.Key pfx)) m0 = .ok m →
      listLoop J ((c.map (fun y => if y.Key = x.Key then x else y)).filter
        (fun r => hasPrefix r.Key pfx)) m0 = .ok m := by
  induction c with
  | nil => intro m0 h; exact h
  | cons y c ih =>
    intro m0 h
    rw [List.map_cons]
    by_cases hk : y.Key = x.Key
    · rw [if_pos hk]
      by_cases hp : hasPrefix x.Key pfx = true
      · have hpy : hasPrefix y.Key pfx = true := by rw [hk]; exact hp
        rw [filter_prefix_cons_pos pfx _ _ hpy] at h
        rw [filter_prefix_cons_pos pfx _ _ hp, listLoop_cons_skip J x _ m0 v hdec (hshape hp)]
        apply ih
        cases hy : J.Unmarshal y.Value with
        | error e =>
          rw [listLoop_cons_error J y _ m0 e hy] at h
          cases h
        | ok vy =>
          rw [listLoop_cons_skip J y _ m0 vy hy (by rw [hk]; exact hshape hp)] at h
          exact h
      · have hpy : ¬ hasPrefix y.Key pfx = true := by rw [hk]; exact hp
        rw [filter_prefix_cons_neg pfx _ _ hpy] at h
        rw [filter_prefix_cons_neg pfx _ _ hp]
        exact ih m0 h
    · rw [if_neg hk]
      by_cases hpy : hasPrefix y.Key pfx = true
      · rw [filter_prefix_cons_pos pfx _ _ hpy] at h ⊢
        cases hy : J.Unmarshal y.Value with
        | error e =>
          rw [listLoop_cons_error J y _ m0 e hy] at h
          cases h
        | ok vy =>
          obtain ⟨m', hm'⟩ := listLoop_cons_step J y m0 vy hy
          rw [hm'] at h ⊢
          exact ih m' h
      · rw [filter_prefix_cons_neg pfx _ _ hpy] at h ⊢
        exact ih m0 h

theorem listLoop_filter_upsert (J : Codec) (pfx : String) (x : Record)
    (v : Option serviceStatus) (hdec : J.Unmarshal x.Value = .ok v)
    (hshape : hasPrefix x.Key pfx = true → (stringsSplit x.Key '/').length ≠ 3)
    (m : StatusMap) (c : Cache)
    (h : listLoop J (c.filter (fun r => hasPrefix r.Key pfx)) [] = .ok m) :
    listLoop J ((upsert c x).filter (fun r => hasPrefix r.Key pfx)) [] = .ok m := by
  unfold upsert
  split_ifs
  · exact listLoop_filter_map_replace J pfx x v hdec hshape m c [] h
  · rw [List.filter_append, listLoop_append, h]
    dsimp only
    by_cases hp : hasPrefix x.Key pfx = true
    · rw [filter_prefix_cons_pos pfx _ _ hp, listLoop_cons_skip J x _ m v hdec (hshape hp)]
      rfl
    · rw [filter_prefix_cons_neg pfx _ _ hp]
      rfl

/-! ## The loops of a tick -/

theorem cacheServices_ok (J : Codec) (F : StoreFaults) (ns : String) (srvs : List Service) :
    ∀ (c : Cache), (∀ srv ∈ srvs, ∀ c', (cacheStatus J F c' ns srv).2 = none) →
      cacheServices J F ns c srvs = (cacheEach J F ns c srvs, none) := by
  induction srvs with
  | nil => intro c _; rfl
  | cons srv srvs ih =>
    intro c h
    have h1 := h srv (List.mem_cons_self _ _) c
    have h2 := ih (cacheStatus J F c ns srv).1 (fun s hs => h s (List.mem_cons_of_mem _ hs))
    rw [cacheServices]
    rcases hc : cacheStatus J F c ns srv with ⟨c1, err⟩
    rw [hc] at h1 h2
    dsimp only at h1 h2
    subst h1
    dsimp only
    rw [h2, cacheEach, cacheEach, List.foldl_cons, hc]

theorem cacheServices_keeps (J : Codec) (F : StoreFaults) (ns : String) (srvs : List Service) :
    ∀ (c : Cache),
      Keeps (fun k => ∃ srv ∈ srvs, srv.Metadata ≠ none ∧ k = statusKey ns srv.Name srv.Version)
        c (cacheServices J F ns c srvs).1 := by
  induction srvs with
  | nil => intro c; exact Keeps.refl _ c
  | cons srv srvs ih =>
    intro c
    have h1 := (cacheStatus_keeps J F c ns srv).mono
      (fun k => ∃ s ∈ srv :: srvs, s.Metadata ≠ none ∧ k = statusKey ns s.Name s.Version)
      (fun k hk => ⟨srv, List.mem_cons_self _ _, hk⟩)
    have h2 := (ih (cacheStatus J F c ns srv).1).mono
      (fun k => ∃ s ∈ srv :: srvs, s.Metadata ≠ none ∧ k = statusKey ns s.Name s.Version)
      (fun k ⟨s, hs, hk⟩ => ⟨s, List.mem_cons_of_mem _ hs, hk⟩)
    rw [cacheServices]
    rcases hc : cacheStatus J F c ns srv with ⟨c1, _ | err⟩
    · rw [hc] at h1 h2
      exact h1.trans h2
    · rw [hc] at h1
      exact h1

theorem pollNamespaces_keeps (J : Codec) (F : StoreFaults)
    (read : String → Except GoError (List Service)) (namespaces : List String) :
    ∀ (c : Cache),
      Keeps (fun k => ∃ ns ∈ namespaces, ∃ srvs, read ns = .ok srvs ∧
          ∃ srv ∈ srvs, srv.Metadata ≠ none ∧ k = statusKey ns srv.Name srv.Version)
        c (pollNamespaces J F read c namespaces).1 := by
  induction namespaces with
  | nil => intro c; exact Keeps.refl _ c
  | cons ns rest ih =>
    intro c
    rw [pollNamespaces]
    cases hs : read ns with
    | error e => exact Keeps.refl _ c
    | ok srvs =>
      dsimp only
      have h1 := (cacheServices_keeps J F ns srvs c).mono
        (fun k => ∃ n ∈ ns :: rest, ∃ ss, read n = .ok ss ∧
          ∃ s ∈ ss, s.Metadata ≠ none ∧ k = statusKey n s.Name s.Version)
        (fun k hk => ⟨ns, List.mem_cons_self _ _, srvs, hs, hk⟩)
      have h2 := (ih (cacheServices J F ns c srvs).1).mono
        (fun k => ∃ n ∈ ns :: rest, ∃ ss, read n = .ok ss ∧
          ∃ s ∈ ss, s.Metadata ≠ none ∧ k = statusKey n s.Name s.Version)
        (fun k ⟨n, hn, hk⟩ => ⟨n, List.mem_cons_of_mem _ hn, hk⟩)
      rcases hc : cacheServices J F ns c srvs with ⟨c1, _ | err⟩
      · rw [hc] at h1 h2
        exact h1.trans h2
      · rw [hc] at h1
        exact h1

/-! ## The claims -/

/-- C1 (as amended): for a namespace, name and version without "/", a service with non-nil
metadata, and a cache in which every other entry under "status/" ++ ns ++ "/" deserializes:
after `cacheStatus ns service` succeeds, if the store's prefix read succeeds then
`listStatuses ns` succeeds and maps "name:version" to the status whose Status and Error are
metadata["status"] and metadata["error"], the empty string when absent. -/
theorem listStatuses_after_cacheStatus (J : Codec) (F : StoreFaults) (c : Cache) (ns : String)
    (srv : Service) (md : List (String × String))
    (hns : '/' ∉ ns.data) (hname : '/' ∉ srv.Name.data) (hver : '/' ∉ srv.Version.data)
    (hmd : srv.Metadata = some md)
    (hok : (cacheStatus J F c ns srv).2 = none)
    (hread : F.readErr (statusPrefix ++ ns ++ "/") = none)
    (hothers : ∀ r ∈ c, hasPrefix r.Key (statusPrefix ++ ns ++ "/") = true →
      r.Key ≠ statusKey ns srv.Name srv.Version → ∃ v, J.Unmarshal r.Value = .ok v) :
    ∃ m, listStatuses J F (cacheStatus J F c ns srv).1 ns = .ok m ∧
      m.lookup (srv.Name ++ ":" ++ srv.Version)
        = some (some ⟨mapIndex md "status", mapIndex md "error"⟩) := by
  obtain ⟨bytes, hm, hc⟩ := cacheStatus_written J F c ns srv md hmd hok
  have hrt := J.roundTrip _ _ hm
  have hsplit := stringsSplit_statusKey ns srv.Name srv.Version hns hname hver
  have h1 : ∀ r ∈ (upsert c ⟨statusKey ns srv.Name srv.Version, bytes⟩).filter
      (fun r => hasPrefix r.Key (statusPrefix ++ ns ++ "/")),
      ∃ v, J.Unmarshal r.Value = .ok v := by
    intro r hr
    obtain ⟨hmem, hpre⟩ := List.mem_filter.mp hr
    rcases mem_upsert c _ r hmem with rfl | ⟨hin, hk⟩
    · exact ⟨_, hrt⟩
    · exact hothers r hin hpre hk
  have h2 : ∀ r ∈ (upsert c ⟨statusKey ns srv.Name srv.Version, bytes⟩).filter
      (fun r => hasPrefix r.Key (statusPrefix ++ ns ++ "/")),
      ∀ a b, stringsSplit r.Key '/' = [a, b, srv.Name ++ ":" ++ srv.Version] →
        J.Unmarshal r.Value = .ok (some ⟨mapIndex md "status", mapIndex md "error"⟩) := by
    intro r hr a b hs
    obtain ⟨hmem, hpre⟩ := List.mem_filter.mp hr
    rcases mem_upsert c _ r hmem with rfl | ⟨_, hk⟩
    · exact hrt
    · exfalso
      apply hk
      apply String.ext
      rw [key_of_three_components ns r.Key a b _ hns hpre hs, statusKey_data]
      simp
  obtain ⟨m', hm', hl⟩ := listLoop_lookup J (srv.Name ++ ":" ++ srv.Version)
    (some ⟨mapIndex md "status", mapIndex md "error"⟩) _ [] h1 h2
  refine ⟨m', ?_, hl (Or.inl ⟨_, List.mem_filter.mpr
    ⟨self_mem_upsert c _, hasPrefix_statusKey ns _ _⟩, _, _, hsplit⟩)⟩
  rw [hc]
  unfold listStatuses cacheRead
  rw [hread]
  exact hm'

/-- C1 (as amended) on a cache that already holds the entry of another service. -/
theorem listStatuses_after_cacheStatus_witness :
    ∃ m, listStatuses jsonCodec noFaults
        (cacheStatus jsonCodec noFaults
          [⟨"status/default/bar:v2", "\x7b\"Status\":\"error\",\"Error\":\"crashed\"\x7d"⟩]
          "default" ⟨"foo", "v1", some [("status", "running")]⟩).1 "default" = .ok m ∧
      m.lookup ("foo" ++ ":" ++ "v1") = some (some ⟨"running", ""⟩) :=
  listStatuses_after_cacheStatus jsonCodec noFaults
    [⟨"status/default/bar:v2", "\x7b\"Status\":\"error\",\"Error\":\"crashed\"\x7d"⟩]
    "default" ⟨"foo", "v1", some [("status", "running")]⟩ [("status", "running")]
    (by decide) (by decide) (by decide) rfl (by decide) rfl
    (by
      intro r hr _ _
      rw [List.mem_singleton] at hr
      subst hr
      exact ⟨some ⟨"error", "crashed"⟩, by decide⟩)

/-- C1 fails (1) for a namespace, (2) a name or (3) a version containing "/": the key written has
more than 3 components and is left out of the listing; (4) on a cache holding another entry
under the prefix whose value does not deserialize: the listing fails; (5) when the store refuses
the prefix read: the listing fails. -/
theorem listStatuses_after_cacheStatus_fails :
    ((cacheStatus jsonCodec noFaults [] "a/b" ⟨"foo", "v1", some [("status", "running")]⟩).2
        = none ∧
      listStatuses jsonCodec noFaults
        (cacheStatus jsonCodec noFaults [] "a/b" ⟨"foo", "v1", some [("status", "running")]⟩).1
        "a/b" = .ok []) ∧
    ((cacheStatus jsonCodec noFaults [] "default"
        ⟨"web/api", "v1", some [("status", "running")]⟩).2 = none ∧
      listStatuses jsonCodec noFaults
        (cacheStatus jsonCodec noFaults [] "default"
          ⟨"web/api", "v1", some [("status", "running")]⟩).1
        "default" = .ok []) ∧
    ((cacheStatus jsonCodec noFaults [] "default"
        ⟨"foo", "feature/x", some [("status", "running")]⟩).2 = none ∧
      listStatuses jsonCodec noFaults
        (cacheStatus jsonCodec noFaults [] "default"
          ⟨"foo", "feature/x", some [("status", "running")]⟩).1
        "default" = .ok []) ∧
    ((cacheStatus jsonCodec noFaults [⟨"status/default/bar:v2", "not json"⟩] "default"
        ⟨"foo", "v1", some [("status", "running")]⟩).2 = none ∧
      listStatuses jsonCodec noFaults
        (cacheStatus jsonCodec noFaults [⟨"status/default/bar:v2", "not json"⟩] "default"
          ⟨"foo", "v1", some [("status", "running")]⟩).1
        "default" = .error (.decode "not json")) ∧
    ((cacheStatus jsonCodec ⟨fun _ => none, fun _ => some (.collaborator "unavailable")⟩ []
        "default" ⟨"foo", "v1", some [("status", "running")]⟩).2 = none ∧
      listStatuses jsonCodec ⟨fun _ => none, fun _ => some (.collaborator "unavailable")⟩
        (cacheStatus jsonCodec ⟨fun _ => none, fun _ => some (.collaborator "unavailable")⟩ []
          "default" ⟨"foo", "v1", some [("status", "running")]⟩).1
        "default" = .error (.listing "default" (.collaborator "unavailable"))) := by
  decide

/-- C2 (as amended): for a service whose metadata is the nil map, `cacheStatus` returns no error
and the cache after the call is the cache before it. -/
theorem cacheStatus_nil_metadata (J : Codec) (F : StoreFaults) (c : Cache) (ns : String)
    (srv : Service) (h : srv.Metadata = none) :
    cacheStatus J F c ns srv = (c, none) := by
  simp [cacheStatus, h]

/-- C2 (as amended) on a cache holding an entry of an earlier cycle. -/
theorem cacheStatus_nil_metadata_witness :
    cacheStatus jsonCodec noFaults [⟨"status/default/foo:v1", "\x7b\"Status\":\"running\",\"Error\":\"\"\x7d"⟩]
        "default" ⟨"foo", "v1", none⟩
      = ([⟨"status/default/foo:v1", "\x7b\"Status\":\"running\",\"Error\":\"\"\x7d"⟩], none) :=
  cacheStatus_nil_metadata jsonCodec noFaults _ "default" ⟨"foo", "v1", none⟩ rfl

/-- C2 fails for a non-nil map without entries: the service is cached with an empty status and
the entry of the earlier cycle is overwritten. -/
theorem cacheStatus_empty_metadata_writes :
    cacheStatus jsonCodec noFaults [⟨"status/default/foo:v1", "\x7b\"Status\":\"running\",\"Error\":\"\"\x7d"⟩]
        "default" ⟨"foo", "v1", some []⟩
      = ([⟨"status/default/foo:v1", "\x7b\"Status\":\"\",\"Error\":\"\"\x7d"⟩], none) := by
  decide

/-- C3: for a namespace, name and version without "/", the key is
"status/" ++ ns ++ "/" ++ name ++ ":" ++ version, splitting it on "/" as `listStatuses` does
gives exactly the three components "status", ns and name ++ ":" ++ version, and it is under this
key that an accepted `cacheStatus` leaves the encoded status in the cache. -/
theorem statusKey_split_roundTrip (ns name version : String)
    (hns : '/' ∉ ns.data) (hname : '/' ∉ name.data) (hver : '/' ∉ version.data) :
    statusKey ns name version = "status/" ++ ns ++ "/" ++ name ++ ":" ++ version ∧
      stringsSplit ("status/" ++ ns ++ "/" ++ name ++ ":" ++ version) '/'
        = ["status", ns, name ++ ":" ++ version] ∧
      ∀ (J : Codec) (F : StoreFaults) (c : Cache) (md : List (String × String)) (bytes : String),
        J.Marshal ⟨mapIndex md "status", mapIndex md "error"⟩ = .ok bytes →
        F.writeErr ⟨"status/" ++ ns ++ "/" ++ name ++ ":" ++ version, bytes⟩ = none →
        (⟨"status/" ++ ns ++ "/" ++ name ++ ":" ++ version, bytes⟩ : Record)
          ∈ (cacheStatus J F c ns ⟨name, version, some md⟩).1 := by
  refine ⟨rfl, stringsSplit_statusKey ns name version hns hname hver, ?_⟩
  intro J F c md bytes hm hw
  have hk : statusKey ns name version = "status/" ++ ns ++ "/" ++ name ++ ":" ++ version := rfl
  unfold cacheStatus
  dsimp only
  rw [hm]
  dsimp only
  unfold cacheWrite
  rw [hk, hw]
  exact self_mem_upsert c _

/-- C3 at ("default", "foo", "v1"): the key is "status/default/foo:v1", it parses back to the
namespace "default" and "foo:v1", and `cacheStatus` stores the status under it. -/
theorem statusKey_split_roundTrip_witness :
    statusKey "default" "foo" "v1" = "status/default/foo:v1" ∧
      stringsSplit "status/default/foo:v1" '/' = ["status", "default", "foo:v1"] ∧
      (⟨"status/default/foo:v1", "\x7b\"Status\":\"running\",\"Error\":\"\"\x7d"⟩ : Record)
        ∈ (cacheStatus jsonCodec noFaults [] "default"
            ⟨"foo", "v1", some [("status", "running")]⟩).1 :=
  ⟨(statusKey_split_roundTrip "default" "foo" "v1" (by decide) (by decide) (by decide)).1,
    (statusKey_split_roundTrip "default" "foo" "v1" (by decide) (by decide) (by decide)).2.1,
    (statusKey_split_roundTrip "default" "foo" "v1" (by decide) (by decide) (by decide)).2.2
      jsonCodec noFaults [] [("status", "running")] _ rfl rfl⟩

/-- C4 (as amended): an entry under the prefix "status/" ++ ns ++ "/" whose key does not split
on "/" into exactly 3 components and whose value deserializes is discarded by `listStatuses ns`:
the call returns what it returns on the cache without that entry. -/
theorem listStatuses_skips_foreign_key (J : Codec) (F : StoreFaults) (l1 l2 : Cache)
    (e : Record) (ns : String) (v : Option serviceStatus)
    (hp : hasPrefix e.Key (statusPrefix ++ ns ++ "/") = true)
    (hshape : (stringsSplit e.Key '/').length ≠ 3)
    (hdec : J.Unmarshal e.Value = .ok v) :
    listStatuses J F (l1 ++ e :: l2) ns = listStatuses J F (l1 ++ l2) ns := by
  unfold listStatuses cacheRead
  cases F.readErr (statusPrefix ++ ns ++ "/") with
  | some err => rfl
  | none =>
    dsimp only
    rw [filter_append_cons_skip, List.filter_append, List.append_assoc, listLoop_append,
      listLoop_append J (List.filter _ l1)]
    cases listLoop J (List.filter (fun r => hasPrefix r.Key (statusPrefix ++ ns ++ "/")) l1) [] with
    | error err => rfl
    | ok m' =>
      dsimp only
      rw [if_pos hp, List.singleton_append, listLoop_cons_skip J e _ m' v hdec hshape]

/-- C4 (as amended) on a cache with a foreign 4-component key between two status entries. -/
theorem listStatuses_skips_foreign_key_witness :
    listStatuses jsonCodec noFaults
        ([⟨"status/default/foo:v1", "\x7b\"Status\":\"running\",\"Error\":\"\"\x7d"⟩] ++
          ⟨"status/default/a/b", "null"⟩ ::
          [⟨"status/default/bar:v2", "\x7b\"Status\":\"error\",\"Error\":\"crashed\"\x7d"⟩])
        "default"
      = listStatuses jsonCodec noFaults
        ([⟨"status/default/foo:v1", "\x7b\"Status\":\"running\",\"Error\":\"\"\x7d"⟩] ++
          [⟨"status/default/bar:v2", "\x7b\"Status\":\"error\",\"Error\":\"crashed\"\x7d"⟩])
        "default" :=
  listStatuses_skips_foreign_key jsonCodec noFaults _ _ ⟨"status/default/a/b", "null"⟩ "default"
    none (by decide) (by decide) (by decide)

/-- C4 fails when the value of the foreign entry does not deserialize: the value is decoded
before the key is looked at, so the 4-component key "status/default/a/b" holding "not json"
makes `listStatuses "default"` fail, while on the cache without it the call returns the map of
the remaining entry. -/
theorem listStatuses_foreign_key_corrupt_value :
    hasPrefix "status/default/a/b" (statusPrefix ++ "default" ++ "/") = true ∧
    (stringsSplit "status/default/a/b" '/').length = 4 ∧
    listStatuses jsonCodec noFaults
        [⟨"status/default/foo:v1", "\x7b\"Status\":\"running\",\"Error\":\"\"\x7d"⟩,
          ⟨"status/default/a/b", "not json"⟩] "default"
      = .error (.decode "not json") ∧
    listStatuses jsonCodec noFaults
        [⟨"status/default/foo:v1", "\x7b\"Status\":\"running\",\"Error\":\"\"\x7d"⟩] "default"
      = .ok [("foo:v1", some ⟨"running", ""⟩)] := by
  decide

/-- C5: when the prefix read for "status/" ++ ns ++ "/" succeeds and returns an entry with a
3-component key whose value fails to deserialize, `listStatuses ns` returns no map but the
decode error of an entry under the prefix, whatever else the cache holds and wherever the
malformed entry sits. -/
theorem listStatuses_decode_error (J : Codec) (F : StoreFaults) (c : Cache) (ns : String)
    (r : Record) (e : GoError)
    (hread : F.readErr (statusPrefix ++ ns ++ "/") = none)
    (hr : r ∈ c) (hp : hasPrefix r.Key (statusPrefix ++ ns ++ "/") = true)
    (_hshape : (stringsSplit r.Key '/').length = 3)
    (hbad : J.Unmarshal r.Value = .error e) :
    ∃ r' ∈ c, hasPrefix r'.Key (statusPrefix ++ ns ++ "/") = true ∧
      ∃ e', J.Unmarshal r'.Value = .error e' ∧ listStatuses J F c ns = .error e' := by
  have hmem : r ∈ c.filter (fun r => hasPrefix r.Key (statusPrefix ++ ns ++ "/")) :=
    List.mem_filter.mpr ⟨hr, hp⟩
  obtain ⟨r', hr', e', he', hl⟩ := listLoop_error_of_mem J _ [] ⟨r, hmem, e, hbad⟩
  obtain ⟨hc, hp'⟩ := List.mem_filter.mp hr'
  refine ⟨r', hc, hp', e', he', ?_⟩
  simp only [listStatuses, cacheRead, hread]
  exact hl

/-- C5 on a cache with a well-formed entry before and after the malformed one. -/
theorem listStatuses_decode_error_witness :
    ∃ r' ∈ [(⟨"status/default/bar:v1", "\x7b\"Status\":\"running\",\"Error\":\"\"\x7d"⟩ : Record),
        ⟨"status/default/foo:v1", "not json"⟩,
        ⟨"status/default/baz:v2", "\x7b\"Status\":\"error\",\"Error\":\"crashed\"\x7d"⟩],
      hasPrefix r'.Key (statusPrefix ++ "default" ++ "/") = true ∧
      ∃ e', jsonCodec.Unmarshal r'.Value = .error e' ∧
        listStatuses jsonCodec noFaults
          [⟨"status/default/bar:v1", "\x7b\"Status\":\"running\",\"Error\":\"\"\x7d"⟩,
            ⟨"status/default/foo:v1", "not json"⟩,
            ⟨"status/default/baz:v2", "\x7b\"Status\":\"error\",\"Error\":\"crashed\"\x7d"⟩]
          "default" = .error e' :=
  listStatuses_decode_error jsonCodec noFaults _ "default" ⟨"status/default/foo:v1", "not json"⟩
    (.decode "not json") rfl (by decide) (by decide) (by decide) (by decide)

/-- C6: in a tick over the namespaces pre ++ ni :: post, if `Runtime.Read` succeeds for every
namespace of pre, every `cacheStatus` for their services succeeds, and `Runtime.Read` fails for
ni, then the cache after the tick is the cache obtained by running `cacheStatus` for exactly the
services of pre: these writes stand and nothing is written for ni or for post. -/
theorem tick_aborts_on_read_error (J : Codec) (F : StoreFaults)
    (read : String → Except GoError (List Service)) (pre post : List String) (ni : String)
    (e : GoError) (c : Cache)
    (hpre : ∀ n ∈ pre, ∃ srvs, read n = .ok srvs)
    (hwrites : ∀ n ∈ pre, ∀ srvs, read n = .ok srvs →
      ∀ srv ∈ srvs, ∀ c', (cacheStatus J F c' n srv).2 = none)
    (hfail : read ni = .error e) :
    watchStautesTick J F (.ok (pre ++ ni :: post)) read c
      = (cacheNamespaces J F read c pre, some e) := by
  unfold watchStautesTick
  dsimp only
  induction pre generalizing c with
  | nil =>
    rw [List.nil_append, pollNamespaces, hfail]
    rfl
  | cons n pre ih =>
    obtain ⟨srvs, hs⟩ := hpre n (List.mem_cons_self _ _)
    have hw := hwrites n (List.mem_cons_self _ _) srvs hs
    rw [List.cons_append, pollNamespaces, hs]
    dsimp only
    rw [cacheServices_ok J F n srvs c hw]
    dsimp only
    rw [ih (cacheEach J F n c srvs) (fun m hm => hpre m (List.mem_cons_of_mem _ hm))
      (fun m hm => hwrites m (List.mem_cons_of_mem _ hm))]
    rw [cacheNamespaces, cacheNamespaces, List.foldl_cons, hs]

/-- C6 on the namespaces "n1", "n2", "n3" where the runtime fails for "n2": the entry of "n1" is
written, nothing is written for "n2" and "n3". -/
theorem tick_aborts_on_read_error_witness :
    watchStautesTick jsonCodec noFaults (.ok (["n1"] ++ "n2" :: ["n3"]))
        (fun ns => if ns = "n2" then .error (.collaborator "unavailable")
          else .ok [⟨"foo", "v1", some [("status", "running")]⟩]) []
      = (cacheNamespaces jsonCodec noFaults
          (fun ns => if ns = "n2" then .error (.collaborator "unavailable")
            else .ok [⟨"foo", "v1", some [("status", "running")]⟩]) [] ["n1"],
        some (.collaborator "unavailable")) ∧
    cacheNamespaces jsonCodec noFaults
        (fun ns => if ns = "n2" then .error (.collaborator "unavailable")
          else .ok [⟨"foo", "v1", some [("status", "running")]⟩]) [] ["n1"]
      = [⟨"status/n1/foo:v1", "\x7b\"Status\":\"running\",\"Error\":\"\"\x7d"⟩] :=
  ⟨tick_aborts_on_read_error jsonCodec noFaults _ ["n1"] ["n3"] "n2" (.collaborator "unavailable")
      []
      (fun n hn => by
        rw [List.mem_singleton] at hn
        subst hn
        exact ⟨[⟨"foo", "v1", some [("status", "running")]⟩], by decide⟩)
      (fun n _ srvs _ srv _ c' => cacheStatus_jsonCodec_noFaults c' n srv)
      (by decide),
    by decide⟩

/-- C7: performing `cacheStatus` for the same namespace and service twice in a row leaves the
cache (and returns the error) exactly as performing it once. -/
theorem cacheStatus_idempotent (J : Codec) (F : StoreFaults) (c : Cache) (ns : String)
    (srv : Service) :
    cacheStatus J F (cacheStatus J F c ns srv).1 ns srv = cacheStatus J F c ns srv := by
  unfold cacheStatus
  cases srv.Metadata with
  | none => rfl
  | some md =>
    dsimp only
    cases J.Marshal ⟨mapIndex md "status", mapIndex md "error"⟩ with
    | error e => rfl
    | ok bytes =>
      dsimp only
      unfold cacheWrite
      cases F.writeErr ⟨statusKey ns srv.Name srv.Version, bytes⟩ with
      | some e => rfl
      | none => simp only [upsert_upsert]

/-- C8: whatever the namespace list, the runtime responses and the store do in a tick, and
whether the tick completes or is aborted, every key of the cache before the tick is a key of the
cache after it, and every record whose key is not the status key of a service with metadata
reported in that tick is still in the cache with its value. -/
theorem tick_no_implicit_deletion (J : Codec) (F : StoreFaults)
    (listNamespaces : Except GoError (List String))
    (read : String → Except GoError (List Service)) (c : Cache) :
    (∀ r ∈ c, ∃ r' ∈ (watchStautesTick J F listNamespaces read c).1, r'.Key = r.Key) ∧
    (∀ r ∈ c,
      (∀ namespaces ns srvs srv, listNamespaces = .ok namespaces → ns ∈ namespaces →
        read ns = .ok srvs → srv ∈ srvs → srv.Metadata ≠ none →
        statusKey ns srv.Name srv.Version ≠ r.Key) →
      r ∈ (watchStautesTick J F listNamespaces read c).1) := by
  unfold watchStautesTick
  cases listNamespaces with
  | error e => exact ⟨fun r hr => ⟨r, hr, rfl⟩, fun r hr _ => hr⟩
  | ok namespaces =>
    have h := pollNamespaces_keeps J F read namespaces c
    refine ⟨h.1, fun r hr hnot => h.2 r hr ?_⟩
    rintro ⟨ns, hns, srvs, hs, srv, hsrv, hmd, hk⟩
    exact hnot namespaces ns srvs srv rfl hns hs hsrv hmd hk.symm

/-- C8 on a cache holding the entry of a service the runtime no longer reports: after the tick
the stale entry is still there, next to the refreshed one. -/
theorem tick_no_implicit_deletion_witness :
    (⟨"status/default/gone:v1", "\x7b\"Status\":\"running\",\"Error\":\"\"\x7d"⟩ : Record) ∈
      (watchStautesTick jsonCodec noFaults (.ok ["default"])
        (fun _ => .ok [⟨"foo", "v1", some [("status", "error"), ("error", "crashed")]⟩])
        [⟨"status/default/gone:v1", "\x7b\"Status\":\"running\",\"Error\":\"\"\x7d"⟩,
          ⟨"status/default/foo:v1", "\x7b\"Status\":\"running\",\"Error\":\"\"\x7d"⟩]).1 :=
  (tick_no_implicit_deletion jsonCodec noFaults (.ok ["default"])
      (fun _ => .ok [⟨"foo", "v1", some [("status", "error"), ("error", "crashed")]⟩])
      [⟨"status/default/gone:v1", "\x7b\"Status\":\"running\",\"Error\":\"\"\x7d"⟩,
        ⟨"status/default/foo:v1", "\x7b\"Status\":\"running\",\"Error\":\"\"\x7d"⟩]).2
    ⟨"status/default/gone:v1", "\x7b\"Status\":\"running\",\"Error\":\"\"\x7d"⟩ (by decide)
    (by
      intro namespaces ns srvs srv h1 h2 h3 h4 _
      cases h1
      rw [List.mem_singleton] at h2
      subst h2
      cases h3
      rw [List.mem_singleton] at h4
      subst h4
      decide)

/-- C9: for distinct namespaces ns1 and ns2 (any strings), any service and any cache on which
`listStatuses ns2` succeeds, performing `cacheStatus ns1 service` leaves the result of
`listStatuses ns2` unchanged. -/
theorem cacheStatus_namespace_isolation (J : Codec) (F : StoreFaults) (c : Cache)
    (ns1 ns2 : String) (srv : Service) (m : StatusMap) (hne : ns1 ≠ ns2)
    (hok : listStatuses J F c ns2 = .ok m) :
    listStatuses J F (cacheStatus J F c ns1 srv).1 ns2 = .ok m := by
  rcases cacheStatus_cases J F c ns1 srv with h | ⟨val, bytes, hm, h⟩
  · rw [h]
    exact hok
  · rw [h]
    unfold listStatuses cacheRead at hok ⊢
    cases hr : F.readErr (statusPrefix ++ ns2 ++ "/") with
    | some e =>
      rw [hr] at hok
      cases hok
    | none =>
      rw [hr] at hok
      dsimp only at hok ⊢
      exact listLoop_filter_upsert J _ ⟨statusKey ns1 srv.Name srv.Version, bytes⟩ (some val)
        (J.roundTrip _ _ hm) (statusKey_foreign_shape ns1 ns2 _ _ hne) m c hok

/-- C9 for the namespaces "a/b" and "a": the key written for "a/b" lies under the prefix of "a"
and the listing of "a" is as before. -/
theorem cacheStatus_namespace_isolation_witness :
    listStatuses jsonCodec noFaults
        (cacheStatus jsonCodec noFaults
          [⟨"status/a/foo:v1", "\x7b\"Status\":\"running\",\"Error\":\"\"\x7d"⟩]
          "a/b" ⟨"foo", "v1", some [("status", "error"), ("error", "crashed")]⟩).1 "a"
      = .ok [("foo:v1", some ⟨"running", ""⟩)] :=
  cacheStatus_namespace_isolation jsonCodec noFaults
    [⟨"status/a/foo:v1", "\x7b\"Status\":\"running\",\"Error\":\"\"\x7d"⟩]
    "a/b" "a" ⟨"foo", "v1", some [("status", "error"), ("error", "crashed")]⟩
    [("foo:v1", some ⟨"running", ""⟩)] (by decide) (by decide)

/-- C10: the status key is injective on triples whose namespace has no "/" and whose name has
no ":": equal keys come from equal namespace, name and version. -/
theorem statusKey_injective (ns name version ns' name' version' : String)
    (hns : '/' ∉ ns.data) (hns' : '/' ∉ ns'.data)
    (hname : ':' ∉ name.data) (hname' : ':' ∉ name'.data)
    (h : statusKey ns name version = statusKey ns' name' version') :
    ns = ns' ∧ name = name' ∧ version = version' := by
  have hd := congrArg String.data h
  rw [statusKey_data, statusKey_data] at hd
  have h1 := List.append_cancel_left hd
  simp only [List.cons.injEq, true_and] at h1
  obtain ⟨e1, h2⟩ := append_cons_cancel '/' _ _ _ _ hns hns' h1
  obtain ⟨e2, e3⟩ := append_cons_cancel ':' _ _ _ _ hname hname' h2
  exact ⟨String.ext e1, String.ext e2, String.ext e3⟩

/-- C10 at two keys of the namespace "default": equal keys force equal components. -/
theorem statusKey_injective_witness :
    statusKey "default" "foo" "v1" = statusKey "default" "foo" "v1" ∧
      ("default" = "default" ∧ "foo" = "foo" ∧ "v1" = "v1") :=
  ⟨rfl, statusKey_injective "default" "foo" "v1" "default" "foo" "v1"
    (by decide) (by decide) (by decide) (by decide) rfl⟩

end Manager
